import Mathlib

/-!
Verification of the composefs-oci design: a content-addressed repository of
container-image artifacts with digest-verified admission (`put_object`),
a pull pipeline, a layered-tar unpack pipeline with whiteout/opaque
semantics, and an optional fs-verity integrity seal.

The CLI driver (`run_from_opt` in `src/lib.rs`) is embedded from the source;
the `repo`, `pull`, `unpack` and `sha256descriptor` modules are embedded as
models of the design's component contracts, as noted on each definition.
-/

namespace ComposefsOci

/-- A single byte of content. -/
abbrev Byte := Fin 256

/-- A byte stream / blob content. -/
abbrev Bytes := List Byte

/-- A digest value (the output of the content hash). -/
abbrev Digest := List Nat

/-- Modelled from the spec: the `sha256descriptor` module is not under `src/`.
The cryptographic digest is modelled as an injective function of the content
bytes — the ideal collision-free hash — so that equal digests coincide with
equal content, as the design's content-addressing invariant assumes. -/
def sha256 (s : Bytes) : Digest := s.map Fin.val

/-- Modelled from the spec: the error taxonomy of §7 (the `repo`/`pull`/`unpack`
modules are not under `src/`). -/
inductive RepoError where
  | digestMismatch
  | sealError
  | ioFail
  | notFound
  | formatError
  | layerFormatError
  deriving DecidableEq

/-- A (digest, declared-size) pair referencing an object (media-type omitted:
no claim depends on it). -/
structure Descriptor where
  digest : Digest
  size : Nat
  deriving DecidableEq

/-- Association-list lookup by key, used for the object store, the tag index
and the artifact table. -/
def lookupKey {α β : Type} [DecidableEq α] (l : List (α × β)) (k : α) : Option β :=
  match l with
  | [] => none
  | p :: rest => if p.1 = k then some p.2 else lookupKey rest k

/-- An artifact record: a root descriptor plus structured metadata. -/
structure ArtifactRec where
  root : Descriptor
  meta : List (String × String)
  deriving DecidableEq

/-- Modelled from the spec: the `repo` module is not under `src/`. The
repository state: a content-addressed object store keyed by digest, the set
of digests carrying a valid integrity seal, the tag index, the artifact
table, and the integrity mode fixed at creation time. -/
structure Repo where
  objects : List (Digest × Bytes)
  sealed : List Digest
  tags : List (String × Nat)
  artifacts : List (Nat × ArtifactRec)
  integrityRequired : Bool
  deriving DecidableEq

/-- Modelled from the spec: `put_object` streams bytes while hashing
incrementally; on digest mismatch it discards the temporary data and fails
with `DigestMismatch`, leaving the store untouched; on match it publishes
atomically under the content address (a no-op if the digest is already
present — deduplication), applying the integrity seal first when the
repository requires it, and failing with `SealError` (committing nothing)
when a required seal cannot be applied. `sealOk` is the environment's
verdict on applying the seal to a given digest. -/
def put_object (sealOk : Digest → Bool) (r : Repo) (stream : Bytes) (expected : Digest) :
    Repo × Except RepoError Descriptor :=
  let d := sha256 stream
  if d = expected then
    match lookupKey r.objects d with
    | some _ => (r, Except.ok ⟨d, stream.length⟩)
    | none =>
      if r.integrityRequired && !(sealOk d) then
        (r, Except.error RepoError.sealError)
      else
        ({ r with objects := (d, stream) :: r.objects,
                  sealed := if sealOk d then d :: r.sealed else r.sealed },
         Except.ok ⟨d, stream.length⟩)
  else (r, Except.error RepoError.digestMismatch)

/-- Modelled from the spec: `get_object` returns the stored bytes for a
descriptor; when integrity mode is required and the storage-layer seal check
fails, it surfaces `SealError` rather than returning unchecked data. -/
def get_object (r : Repo) (desc : Descriptor) : Except RepoError Bytes :=
  match lookupKey r.objects desc.digest with
  | some b =>
    if r.integrityRequired && !(decide (desc.digest ∈ r.sealed)) then
      Except.error RepoError.sealError
    else Except.ok b
  | none => Except.error RepoError.notFound

/-- Modelled from the spec: the Descriptor Verifier of §4.2 (the
`sha256descriptor` module is not under `src/`). It consumes the stream,
computes the digest over all of it, and only then compares with the
expected digest: success returns the verified stream, mismatch fails with
`DigestMismatch`. -/
def verify (s : Bytes) (expected : Digest) : Except RepoError Bytes :=
  if sha256 s = expected then Except.ok s else Except.error RepoError.digestMismatch

/-- Modelled from the spec: `commit_artifact` records an artifact — a pure
append to the artifact table, with no tag side effect. -/
def commit_artifact (r : Repo) (root : Descriptor) (meta : List (String × String)) :
    Repo × Nat :=
  let aid := r.artifacts.length
  ({ r with artifacts := (aid, ⟨root, meta⟩) :: r.artifacts }, aid)

/-- Modelled from the spec: `read_artifact_metadata(name)` returns the tagged
artifact's metadata, or `none` when the tag is absent (a normal, non-fatal
outcome per §7). -/
def read_artifact_metadata (r : Repo) (name : String) : Option (List (String × String)) :=
  match lookupKey r.tags name with
  | none => none
  | some aid => (lookupKey r.artifacts aid).map ArtifactRec.meta

/-- The source bytes a remote offers for one descriptor: the fetched stream
paired with the descriptor that declared its digest and size. -/
structure BlobSrc where
  desc : Descriptor
  bytes : Bytes
  deriving DecidableEq

/-- Modelled from the spec: the per-blob loop of the Pull Pipeline (§4.3,
the `pull` module is not under `src/`): each fetched blob is verified against
its descriptor's declared digest by `put_object` and admitted; the first
failure aborts the remaining blobs. -/
def pullBlobs (sealOk : Digest → Bool) (r : Repo) :
    List BlobSrc → Repo × Except RepoError (List Descriptor)
  | [] => (r, Except.ok [])
  | b :: bs =>
    match put_object sealOk r b.bytes b.desc.digest with
    | (r', Except.ok d) =>
      let rest := pullBlobs sealOk r' bs
      (rest.1, rest.2.map fun ds => d :: ds)
    | (r', Except.error e) => (r', Except.error e)

/-- Modelled from the spec: the Pull Pipeline (§4.3). The manifest blob and
every referenced blob (config and layers, in order) are fetched, verified and
stored; only when all are admitted is an artifact committed, with the
manifest's descriptor as root. No tag is written. -/
def pull (sealOk : Digest → Bool) (r : Repo) (imageRef : String)
    (manifest : BlobSrc) (blobs : List BlobSrc) : Repo × Except RepoError Nat :=
  match put_object sealOk r manifest.bytes manifest.desc.digest with
  | (r1, Except.error e) => (r1, Except.error e)
  | (r1, Except.ok mdesc) =>
    match pullBlobs sealOk r1 blobs with
    | (r2, Except.error e) => (r2, Except.error e)
    | (r2, Except.ok _) =>
      let rc := commit_artifact r2 mdesc [("reference", imageRef)]
      (rc.1, Except.ok rc.2)

mutual
/-- Modelled from the spec: a reconstructed filesystem node (§3, Tree Entry;
the `unpack` module is not under `src/`). A regular file references its
content through a Descriptor; a directory's children are keyed by name. -/
inductive Entry where
  | file (d : Descriptor) (mode : Nat)
  | dir (mode : Nat) (children : Dirents)
  | symlink (target : String)
  | hardlink (target : List String)
  | device (rdev : Nat)

/-- The children of a directory: a name-keyed sequence of entries. -/
inductive Dirents where
  | nil
  | cons (name : String) (e : Entry) (rest : Dirents)
end

/-- Find the child with the given name. -/
def lookupD (cs : Dirents) (n : String) : Option Entry :=
  match cs with
  | .nil => none
  | .cons m e rest => if m = n then some e else lookupD rest n

/-- Bind a name to an entry, replacing an existing binding of that name. -/
def insertD (cs : Dirents) (n : String) (e : Entry) : Dirents :=
  match cs with
  | .nil => .cons n e .nil
  | .cons m e0 rest => if m = n then .cons n e rest else .cons m e0 (insertD rest n e)

/-- Drop every binding of the given name. -/
def removeD (cs : Dirents) (n : String) : Dirents :=
  match cs with
  | .nil => .nil
  | .cons m e rest => if m = n then removeD rest n else .cons m e (removeD rest n)

/-- Default mode for directories created implicitly for missing ancestors
(0o755). -/
def defDirMode : Nat := 493

/-- Resolve a path in the cumulative tree. -/
def lookupPath (t : Entry) (p : List String) : Option Entry :=
  match p with
  | [] => some t
  | n :: rest =>
    match t with
    | .dir _ cs =>
      match lookupD cs n with
      | some c => lookupPath c rest
      | none => none
    | _ => none

/-- Set the entry at a path, fully replacing whatever was there (the
tie-break rule of §4.4: later layers override earlier ones, including type
changes). Missing ancestors are created as directories; a non-directory
ancestor is replaced by a fresh directory. -/
def insertPath (t : Entry) (p : List String) (newE : Entry) : Entry :=
  match p with
  | [] => newE
  | n :: rest =>
    match t with
    | .dir m cs =>
      let child :=
        match lookupD cs n with
        | some c => c
        | none => Entry.dir defDirMode Dirents.nil
      .dir m (insertD cs n (insertPath child rest newE))
    | _ => .dir defDirMode (insertD Dirents.nil n (insertPath (Entry.dir defDirMode Dirents.nil) rest newE))

/-- Apply a directory tar entry: create or update directory metadata without
removing existing children (§4.4); a non-directory at that path is fully
replaced by an empty directory with the new metadata. -/
def setDirMeta (t : Entry) (p : List String) (m : Nat) : Entry :=
  match p with
  | [] =>
    match t with
    | .dir _ cs => .dir m cs
    | _ => .dir m Dirents.nil
  | n :: rest =>
    match t with
    | .dir dm cs =>
      let child :=
        match lookupD cs n with
        | some c => c
        | none => Entry.dir defDirMode Dirents.nil
      .dir dm (insertD cs n (setDirMeta child rest m))
    | _ => .dir defDirMode (insertD Dirents.nil n (setDirMeta (Entry.dir defDirMode Dirents.nil) rest m))

/-- Apply a whiteout: remove the named entry (a removed directory entry takes
its contents with it); a whiteout for an absent name is a no-op. -/
def removePath (t : Entry) (p : List String) : Entry :=
  match p with
  | [] => t
  | [n] =>
    match t with
    | .dir m cs => .dir m (removeD cs n)
    | _ => t
  | n :: rest =>
    match t with
    | .dir m cs =>
      match lookupD cs n with
      | some c => .dir m (insertD cs n (removePath c rest))
      | none => t
    | _ => t

/-- Apply an opaque-directory marker: clear all children previously recorded
under the directory path; absent or non-directory targets are left alone. -/
def clearPath (t : Entry) (p : List String) : Entry :=
  match p with
  | [] =>
    match t with
    | .dir m _ => .dir m Dirents.nil
    | _ => t
  | n :: rest =>
    match t with
    | .dir m cs =>
      match lookupD cs n with
      | some c => .dir m (insertD cs n (clearPath c rest))
      | none => t
    | _ => t

/-- Modelled from the spec: one tar-style entry of a layer (§4.4). -/
inductive TarItem where
  | reg (path : List String) (content : Bytes) (mode : Nat)
  | dir (path : List String) (mode : Nat)
  | symlink (path : List String) (target : String)
  | hardlink (path : List String) (target : List String)
  | device (path : List String) (rdev : Nat)
  | whiteout (path : List String)
  | opaqDir (path : List String)

/-- The path a tar entry acts on. -/
def itemPath : TarItem → List String
  | .reg p _ _ => p
  | .dir p _ => p
  | .symlink p _ => p
  | .hardlink p _ => p
  | .device p _ => p
  | .whiteout p => p
  | .opaqDir p => p

/-- Boolean list-prefix test on paths. -/
def isPre : List String → List String → Bool
  | [], _ => true
  | _ :: _, [] => false
  | a :: as, b :: bs => a = b && isPre as bs

/-- Two paths touch when either is a prefix of the other; operations on a
path can only affect lookups at paths it touches. -/
def touches (q p : List String) : Bool := isPre q p || isPre p q

/-- Modelled from the spec: apply one tar entry of a layer to the repository
and the cumulative tree (§4.4). A regular file's content is admitted into
the object store via `put_object` (digest computed over the extracted bytes)
and the tree entry is set to reference the resulting descriptor; directory,
link and device entries only touch the tree; whiteouts remove and
opaque-directory markers clear; a failed admission aborts. -/
def applyItem (sealOk : Digest → Bool) (r : Repo) (t : Entry) :
    TarItem → Except RepoError (Repo × Entry)
  | .reg p c m =>
    match put_object sealOk r c (sha256 c) with
    | (r', Except.ok d) => Except.ok (r', insertPath t p (Entry.file d m))
    | (_, Except.error e) => Except.error e
  | .dir p m => Except.ok (r, setDirMeta t p m)
  | .symlink p tgt => Except.ok (r, insertPath t p (Entry.symlink tgt))
  | .hardlink p tgt => Except.ok (r, insertPath t p (Entry.hardlink tgt))
  | .device p rdev => Except.ok (r, insertPath t p (Entry.device rdev))
  | .whiteout p => Except.ok (r, removePath t p)
  | .opaqDir p => Except.ok (r, clearPath t p)

/-- Apply the entries of one layer in order; the first failure aborts. -/
def applyItems (sealOk : Digest → Bool) (r : Repo) (t : Entry) :
    List TarItem → Except RepoError (Repo × Entry)
  | [] => Except.ok (r, t)
  | it :: its =>
    match applyItem sealOk r t it with
    | Except.ok rt => applyItems sealOk rt.1 rt.2 its
    | Except.error e => Except.error e

/-- Modelled from the spec: the layer loop of the Unpack Pipeline (§4.4):
layers are processed in strict manifest order over one cumulative tree. -/
def applyLayers (sealOk : Digest → Bool) (r : Repo) (t : Entry) :
    List (List TarItem) → Except RepoError (Repo × Entry)
  | [] => Except.ok (r, t)
  | l :: ls =>
    match applyItems sealOk r t l with
    | Except.ok rt => applyLayers sealOk rt.1 rt.2 ls
    | Except.error e => Except.error e

/-- The outcome of the driver's `Inspect` subcommand: the metadata records
written to stdout, and whether the command returned success. Embedded from
`run_from_opt` in `src/lib.rs`: when `read_artifact_metadata` yields a
record it is serialized to stdout, otherwise nothing is written; either way
the command returns `Ok(())`. -/
def runInspect (r : Repo) (name : String) : List (List (String × String)) × Bool :=
  match read_artifact_metadata r name with
  | some m => ([m], true)
  | none => ([], true)

/-- A minimal ambient filesystem for the driver: the set of existing
directories and the set of existing files, each named by its path. -/
structure Fsys where
  dirs : List (List String)
  files : List (List String)
  deriving DecidableEq

/-- All prefixes of a path, from the root to the path itself. -/
def ancestors : List String → List (List String)
  | [] => [[]]
  | a :: rest => [] :: (ancestors rest).map (a :: ·)

/-- `std::fs::create_dir_all`: creates the directory and every missing
parent; an already existing directory is not an error. -/
def create_dir_all (fs : Fsys) (p : List String) : Fsys :=
  { fs with dirs := ancestors p ++ fs.dirs }

/-- The `create` subcommand's options (`CreateOpts` in `src/lib.rs`): the
repository path and the `--require-verity` flag. -/
structure CreateOpts where
  repo : List String
  require_verity : Bool
  deriving DecidableEq

/-- A record of the `Repo::init` invocation the driver performs (the `repo`
module itself is not under `src/`). -/
structure InitCall where
  path : List String
  requireVerity : Bool
  deriving DecidableEq

/-- Embedded from `run_from_opt` in `src/lib.rs` (`Opt::Create` arm): the
driver runs `create_dir_all` on the repository path, opens the resulting
directory, and calls `Repo::init` with the `require_verity` flag from the
command line; it never checks that the target is empty. -/
def runCreate (fs : Fsys) (opts : CreateOpts) : Except RepoError (Fsys × InitCall) :=
  let fs' := create_dir_all fs opts.repo
  Except.ok (fs', ⟨opts.repo, opts.require_verity⟩)

/-- Every stored object hashes to the digest it is stored under
(the admission invariant of the store, decidable). -/
def storeValid (r : Repo) : Bool :=
  r.objects.all fun p => decide (sha256 p.2 = p.1)

/-- Digest keys of the object store are pairwise distinct (at most one
storage entry per content address). -/
def storeNodup (r : Repo) : Prop := (r.objects.map Prod.fst).Nodup

/-- In required integrity mode, every committed object carries a valid seal. -/
def sealInvB (r : Repo) : Bool :=
  !r.integrityRequired || r.objects.all fun p => decide (p.1 ∈ r.sealed)

/-- The empty repository in best-effort integrity mode. -/
def repo0 : Repo := ⟨[], [], [], [], false⟩

/-- The empty repository in required integrity mode. -/
def repo0req : Repo := ⟨[], [], [], [], true⟩

/-- An empty root directory, the initial cumulative tree of an unpack. -/
def tree0 : Entry := Entry.dir defDirMode Dirents.nil

/-- Extract the state from a successful unpack step (used to name the
result of concrete runs; the default is never reached in those runs). -/
def exOk (x : Except RepoError (Repo × Entry)) : Repo × Entry :=
  match x with
  | Except.ok rt => rt
  | Except.error _ => (repo0, tree0)

/-- The bytes of the string `foo`. -/
def fooB : Bytes := [102, 111, 111]

/-- The bytes of the string `bar`. -/
def barB : Bytes := [98, 97, 114]

/-- Two layers both writing `/a`: layer 1 with content `foo`, layer 2 with
content `bar`. -/
def ovLayers : List (List TarItem) :=
  [[TarItem.reg ["a"] fooB 420], [TarItem.reg ["a"] barB 420]]

/-- The result of unpacking `ovLayers` into an empty repository. -/
def ovRun : Repo × Entry := exOk (applyLayers (fun _ => true) repo0 tree0 ovLayers)

/-- Layer 1 creates `/dir/f`; layer 2 whites it out. -/
def whLayers : List (List TarItem) :=
  [[TarItem.reg ["dir", "f"] fooB 420], [TarItem.whiteout ["dir", "f"]]]

/-- The result of unpacking `whLayers` into an empty repository. -/
def whRun : Repo × Entry := exOk (applyLayers (fun _ => true) repo0 tree0 whLayers)

/-- Layer 1 creates `/dir/a` and `/dir/b`; layer 2 marks `/dir` opaque and
creates `/dir/c`. -/
def opLayers : List (List TarItem) :=
  [[TarItem.reg ["dir", "a"] fooB 420, TarItem.reg ["dir", "b"] fooB 420],
   [TarItem.opaqDir ["dir"], TarItem.reg ["dir", "c"] barB 420]]

/-- The result of unpacking `opLayers` into an empty repository. -/
def opRun : Repo × Entry := exOk (applyLayers (fun _ => true) repo0 tree0 opLayers)

/-- Metadata of the demo artifact used in concrete runs. -/
def demoMeta : List (String × String) := [("reference", "demo")]

/-- A repository holding one artifact tagged `demo`. -/
def repoTag : Repo :=
  ⟨[], [], [("demo", 0)], [(0, ⟨⟨[0], 0⟩, demoMeta⟩)], false⟩

/-- An ambient filesystem in which the target directory `r` already exists
and is not empty (it contains the file `r/junk`). -/
def fs0 : Fsys := ⟨[["r"]], [["r", "junk"]]⟩

/-! Theorems about the embedded operations. -/

/-- The digest function of the model is injective (ideal hash). -/
theorem sha256_inj {a b : Bytes} (h : sha256 a = sha256 b) : a = b :=
  List.map_injective_iff.mpr Fin.val_injective h

/-- Digest of a stream determines its length. -/
theorem sha256_length (s : Bytes) : (sha256 s).length = s.length :=
  List.length_map s Fin.val

theorem storeValid_mem {r : Repo} (hv : storeValid r = true) {d : Digest} {b : Bytes}
    (hm : (d, b) ∈ r.objects) : sha256 b = d := by
  have := List.all_eq_true.mp hv (d, b) hm
  exact of_decide_eq_true this

theorem sealInvB_mem {r : Repo} (hs : sealInvB r = true) (hreq : r.integrityRequired = true)
    {d : Digest} {b : Bytes} (hm : (d, b) ∈ r.objects) : d ∈ r.sealed := by
  simp only [sealInvB, hreq, Bool.not_true, Bool.false_or, List.all_eq_true] at hs
  exact of_decide_eq_true (hs (d, b) hm)

theorem lookupKey_mem {α β : Type} [DecidableEq α] {l : List (α × β)} {k : α} {v : β}
    (h : lookupKey l k = some v) : (k, v) ∈ l := by
  induction l with
  | nil => simp [lookupKey] at h
  | cons p rest ih =>
    obtain ⟨a, b⟩ := p
    by_cases hk : a = k
    · simp [lookupKey, hk] at h
      subst hk
      subst h
      exact List.mem_cons_self _ _
    · simp [lookupKey, hk] at h
      exact List.mem_cons_of_mem _ (ih h)

/-- C3: the Descriptor Verifier signals success exactly when the digest
computed over the entire stream equals the expected digest; any mismatch
fails with `DigestMismatch`; and success is never signalled on the strength
of a proper prefix: when the stream properly extends a prefix whose digest
matches, verification of the whole stream still fails. -/
theorem verify_whole_stream (s : Bytes) (d : Digest) :
    (verify s d = Except.ok s ↔ sha256 s = d) ∧
    (sha256 s ≠ d → verify s d = Except.error RepoError.digestMismatch) ∧
    (∀ p q, s = p ++ q → q ≠ [] → sha256 p = d →
      verify s d = Except.error RepoError.digestMismatch) := by
  refine ⟨⟨fun h => ?_, fun h => by simp [verify, h]⟩, fun h => by simp [verify, h], ?_⟩
  · by_contra hne
    simp [verify, hne] at h
  · intro p q hs hq hp
    have hne : sha256 s ≠ d := by
      intro hEq
      have h1 : (sha256 s).length = (sha256 p).length := by rw [hEq, hp]
      rw [sha256_length, sha256_length, hs, List.length_append] at h1
      have : q.length ≠ 0 := fun h0 => hq (List.length_eq_zero.mp h0)
      omega
    simp [verify, hne]

/-- Witness for C3 at a concrete stream: the prefix `[0]` of `[0, 1]` hashes
to `[0]`, yet verifying the whole stream against `[0]` fails. -/
theorem verify_whole_stream_w :
    verify [(0 : Fin 256), 1] [0] = Except.error RepoError.digestMismatch :=
  (verify_whole_stream [(0 : Fin 256), 1] [0]).2.2 [(0 : Fin 256)] [(1 : Fin 256)]
    rfl (by decide) (by decide)

/-- C1: `put_object(S, D)` on a mismatching stream fails with
`DigestMismatch` and leaves the repository exactly as it was (so nothing —
partial or unverified — becomes reachable at D's content address that was
not there before); on success the returned descriptor is addressed by `D`
and `get_object` at it yields bytes whose digest is `D`. -/
theorem put_object_admission (sealOk : Digest → Bool) (r : Repo) (S : Bytes) (D : Digest)
    (hv : storeValid r = true) (hs : sealInvB r = true) :
    (sha256 S ≠ D →
      put_object sealOk r S D = (r, Except.error RepoError.digestMismatch)) ∧
    (∀ r' desc, put_object sealOk r S D = (r', Except.ok desc) →
      desc.digest = D ∧ ∃ b, get_object r' desc = Except.ok b ∧ sha256 b = D) := by
  constructor
  · intro hne
    simp [put_object, hne]
  · intro r' desc h
    simp only [put_object] at h
    split at h
    case isTrue hD =>
      subst hD
      split at h
      case h_1 b hl =>
        simp only [Prod.mk.injEq, Except.ok.injEq] at h
        obtain ⟨hr, hd⟩ := h
        subst hr
        subst hd
        refine ⟨rfl, b, ?_, ?_⟩
        · simp only [get_object, hl]
          by_cases hreq : r.integrityRequired
          · have hmem := sealInvB_mem hs hreq (lookupKey_mem hl)
            simp [hreq, hmem]
          · simp [hreq]
        · exact storeValid_mem hv (lookupKey_mem hl)
      case h_2 hl =>
        split at h
        case isTrue hseal => simp at h
        case isFalse hseal =>
          simp only [Prod.mk.injEq, Except.ok.injEq] at h
          obtain ⟨hr, hd⟩ := h
          subst hd
          refine ⟨rfl, S, ?_, rfl⟩
          subst hr
          simp only [get_object, lookupKey, if_pos rfl]
          by_cases hreq : r.integrityRequired
          · have hso : sealOk (sha256 S) = true := by
              by_contra hso
              exact hseal (by simp [hreq, hso])
            simp [hreq, hso]
          · simp [hreq]
    case isFalse hD => simp at h

/-- Witness for C1: in an empty repository, putting the stream `[1]` under
the wrong digest `[0]` fails with `DigestMismatch` leaving the repository
untouched, while putting it under its true digest `[1]` succeeds and reads
back bytes hashing to `[1]`. -/
theorem put_object_admission_w :
    put_object (fun _ => true) repo0 [(1 : Fin 256)] [0] =
      (repo0, Except.error RepoError.digestMismatch) ∧
    (Descriptor.mk [1] 1).digest = [1] ∧
    ∃ b, get_object (put_object (fun _ => true) repo0 [(1 : Fin 256)] [1]).1
        (Descriptor.mk [1] 1) = Except.ok b ∧ sha256 b = [1] :=
  ⟨(put_object_admission (fun _ => true) repo0 [(1 : Fin 256)] [0] (by decide)
      (by decide)).1 (by decide),
   (put_object_admission (fun _ => true) repo0 [(1 : Fin 256)] [1] (by decide)
      (by decide)).2 (put_object (fun _ => true) repo0 [(1 : Fin 256)] [1]).1
      (Descriptor.mk [1] 1) rfl⟩

theorem lookupKey_none {α β : Type} [DecidableEq α] {l : List (α × β)} {k : α}
    (h : lookupKey l k = none) : ∀ p ∈ l, p.1 ≠ k := by
  induction l with
  | nil => intro p hp; simp at hp
  | cons a rest ih =>
    intro p hp
    simp only [lookupKey] at h
    by_cases hk : a.1 = k
    · simp [hk] at h
    · simp only [if_neg hk] at h
      rcases List.mem_cons.mp hp with hpa | hpr
      · subst hpa; exact hk
      · exact ih h p hpr

theorem filter_key_len_zero {α β : Type} [DecidableEq α] {l : List (α × β)} {k : α}
    (h : ∀ p ∈ l, p.1 ≠ k) :
    (l.filter fun p => decide (p.1 = k)).length = 0 := by
  induction l with
  | nil => rfl
  | cons a rest ih =>
    have ha : a.1 ≠ k := h a (List.mem_cons_self _ _)
    simp only [List.filter_cons]
    rw [if_neg (by simp [ha])]
    exact ih fun p hp => h p (List.mem_cons_of_mem _ hp)

theorem filter_key_len_one {α β : Type} [DecidableEq α] {l : List (α × β)} {k : α} {v : β}
    (hnd : (l.map Prod.fst).Nodup) (h : lookupKey l k = some v) :
    (l.filter fun p => decide (p.1 = k)).length = 1 := by
  induction l with
  | nil => simp [lookupKey] at h
  | cons a rest ih =>
    simp only [List.map_cons, List.nodup_cons] at hnd
    obtain ⟨hna, hnr⟩ := hnd
    simp only [lookupKey] at h
    by_cases hk : a.1 = k
    · subst hk
      have hz : (rest.filter fun p => decide (p.1 = a.1)).length = 0 := by
        apply filter_key_len_zero
        intro p hp hpk
        exact hna (hpk ▸ List.mem_map_of_mem Prod.fst hp)
      simp [List.filter_cons, hz]
    · simp only [if_neg hk] at h
      simp only [List.filter_cons]
      rw [if_neg (by simp [hk])]
      exact ih hnr h

/-- C4: for contents `A = B`, after `put_object(A)` succeeds, `put_object(B)`
is a deduplicating no-op: it returns the very same descriptor and repository
state, and the store holds exactly one entry at that content address. -/
theorem put_object_dedup (sealOk : Digest → Bool) (r : Repo) (A B : Bytes) (hAB : A = B)
    (hnd : storeNodup r) (r1 : Repo) (d1 : Descriptor)
    (h1 : put_object sealOk r A (sha256 A) = (r1, Except.ok d1)) :
    put_object sealOk r1 B (sha256 B) = (r1, Except.ok d1) ∧
    (r1.objects.filter fun p => decide (p.1 = sha256 A)).length = 1 := by
  subst hAB
  have hput := h1
  simp only [put_object, if_true] at hput
  split at hput
  case h_1 b hl =>
    simp only [Prod.mk.injEq, Except.ok.injEq] at hput
    obtain ⟨hr, hd⟩ := hput
    subst hr
    subst hd
    refine ⟨?_, filter_key_len_one hnd hl⟩
    simp only [put_object, if_true]
    rw [hl]
  case h_2 hl =>
    split at hput
    case isTrue => simp at hput
    case isFalse hseal =>
      simp only [Prod.mk.injEq, Except.ok.injEq] at hput
      obtain ⟨hr, hd⟩ := hput
      subst hr
      subst hd
      constructor
      · simp only [put_object, if_true]
        simp [lookupKey]
      · have hz : (r.objects.filter fun p => decide (p.1 = sha256 A)).length = 0 :=
          filter_key_len_zero (lookupKey_none hl)
        simp [List.filter_cons, hz]

/-- Witness for C4: storing the one-byte content `[2]` twice in an empty
repository returns the same descriptor twice and leaves one storage entry. -/
theorem put_object_dedup_w :
    put_object (fun _ => true)
        (put_object (fun _ => true) repo0 [(2 : Fin 256)] (sha256 [(2 : Fin 256)])).1
        [(2 : Fin 256)] (sha256 [(2 : Fin 256)]) =
      ((put_object (fun _ => true) repo0 [(2 : Fin 256)] (sha256 [(2 : Fin 256)])).1,
        Except.ok (Descriptor.mk [2] 1)) ∧
    ((put_object (fun _ => true) repo0 [(2 : Fin 256)] (sha256 [(2 : Fin 256)])).1.objects.filter
        fun p => decide (p.1 = sha256 [(2 : Fin 256)])).length = 1 :=
  put_object_dedup (fun _ => true) repo0 [(2 : Fin 256)] [(2 : Fin 256)] rfl
    (by simp [storeNodup, repo0]) _ (Descriptor.mk [2] 1) rfl

/-- `put_object` never touches the tag index or the artifact table, and only
ever adds to the object store. -/
theorem put_object_frame (sealOk : Digest → Bool) (r : Repo) (S : Bytes) (D : Digest) :
    (put_object sealOk r S D).1.tags = r.tags ∧
    (put_object sealOk r S D).1.artifacts = r.artifacts ∧
    ∀ ob ∈ r.objects, ob ∈ (put_object sealOk r S D).1.objects := by
  simp only [put_object]
  split
  · split
    · exact ⟨rfl, rfl, fun ob h => h⟩
    · split
      · exact ⟨rfl, rfl, fun ob h => h⟩
      · exact ⟨rfl, rfl, fun ob h => List.mem_cons_of_mem _ h⟩
  · exact ⟨rfl, rfl, fun ob h => h⟩

/-- The per-blob pull loop never touches tags or artifacts and only adds
objects, whatever its outcome. -/
theorem pullBlobs_frame (sealOk : Digest → Bool) (blobs : List BlobSrc) (r : Repo) :
    (pullBlobs sealOk r blobs).1.tags = r.tags ∧
    (pullBlobs sealOk r blobs).1.artifacts = r.artifacts ∧
    ∀ ob ∈ r.objects, ob ∈ (pullBlobs sealOk r blobs).1.objects := by
  induction blobs generalizing r with
  | nil => exact ⟨rfl, rfl, fun ob h => h⟩
  | cons b bs ih =>
    simp only [pullBlobs]
    have hfr := put_object_frame sealOk r b.bytes b.desc.digest
    cases hp : put_object sealOk r b.bytes b.desc.digest with
    | mk r' res =>
      rw [hp] at hfr
      cases res with
      | ok d =>
        have hfr2 := ih r'
        refine ⟨by rw [hfr2.1]; exact hfr.1, by rw [hfr2.2.1]; exact hfr.2.1, ?_⟩
        intro ob h
        exact hfr2.2.2 ob (hfr.2.2 ob h)
      | error e => exact hfr

/-- When some blob in the list mismatches its declared digest, the per-blob
loop necessarily ends in an error. -/
theorem pullBlobs_mismatch (sealOk : Digest → Bool) (blobs : List BlobSrc) (r : Repo)
    (hbad : ∃ b ∈ blobs, sha256 b.bytes ≠ b.desc.digest) :
    ∃ e, (pullBlobs sealOk r blobs).2 = Except.error e := by
  induction blobs generalizing r with
  | nil => simp at hbad
  | cons b bs ih =>
    simp only [pullBlobs]
    cases hp : put_object sealOk r b.bytes b.desc.digest with
    | mk r' res =>
      cases res with
      | error e => exact ⟨e, rfl⟩
      | ok d =>
        rcases hbad with ⟨x, hx, hxbad⟩
        rcases List.mem_cons.mp hx with hxb | hxs
        · exfalso
          subst hxb
          simp [put_object, hxbad] at hp
        · obtain ⟨e2, he2⟩ := ih r' ⟨x, hxs, hxbad⟩
          refine ⟨e2, ?_⟩
          show ((pullBlobs sealOk r' bs).2.map fun ds => d :: ds) = Except.error e2
          rw [he2]
          rfl

/-- C2: a pull in which some fetched blob (the manifest included) mismatches
its descriptor's declared digest aborts with an error: no artifact is
committed and no tag is written (both tables are exactly as before), while
every object already admitted — before the pull or by it — remains stored. -/
theorem pull_mismatch_aborts (sealOk : Digest → Bool) (r : Repo) (iref : String)
    (man : BlobSrc) (blobs : List BlobSrc)
    (hbad : ∃ b ∈ man :: blobs, sha256 b.bytes ≠ b.desc.digest) :
    ∃ r' e, pull sealOk r iref man blobs = (r', Except.error e) ∧
      r'.tags = r.tags ∧ r'.artifacts = r.artifacts ∧
      ∀ ob ∈ r.objects, ob ∈ r'.objects := by
  have hfrm := put_object_frame sealOk r man.bytes man.desc.digest
  cases hp : put_object sealOk r man.bytes man.desc.digest with
  | mk r1 res =>
    rw [hp] at hfrm
    cases res with
    | error e =>
      refine ⟨r1, e, ?_, hfrm.1, hfrm.2.1, hfrm.2.2⟩
      simp [pull, hp]
    | ok mdesc =>
      have hman : sha256 man.bytes = man.desc.digest := by
        by_contra hne
        simp [put_object, hne] at hp
      have hbad2 : ∃ b ∈ blobs, sha256 b.bytes ≠ b.desc.digest := by
        rcases hbad with ⟨x, hx, hxbad⟩
        rcases List.mem_cons.mp hx with hxb | hxs
        · exact absurd hman (hxb ▸ hxbad)
        · exact ⟨x, hxs, hxbad⟩
      have hfrb := pullBlobs_frame sealOk blobs r1
      obtain ⟨e2, he2⟩ := pullBlobs_mismatch sealOk blobs r1 hbad2
      cases hq : pullBlobs sealOk r1 blobs with
      | mk r2 res2 =>
        rw [hq] at hfrb he2
        simp only [] at he2
        subst he2
        refine ⟨r2, e2, ?_, ?_, ?_, ?_⟩
        · simp [pull, hp, hq]
        · rw [hfrb.1]; exact hfrm.1
        · rw [hfrb.2.1]; exact hfrm.2.1
        · intro ob h
          exact hfrb.2.2 ob (hfrm.2.2 ob h)

/-- Witness for C2: pulling a single-blob image whose manifest bytes hash to
`[1]` but are declared as `[0]` aborts, leaving the empty repository's tags,
artifacts and objects as they were. -/
theorem pull_mismatch_aborts_w :
    ∃ r' e,
      pull (fun _ => true) repo0 "img" (BlobSrc.mk (Descriptor.mk [0] 1) [(1 : Fin 256)]) [] =
        (r', Except.error e) ∧
      r'.tags = repo0.tags ∧ r'.artifacts = repo0.artifacts ∧
      ∀ ob ∈ repo0.objects, ob ∈ r'.objects :=
  pull_mismatch_aborts (fun _ => true) repo0 "img"
    (BlobSrc.mk (Descriptor.mk [0] 1) [(1 : Fin 256)]) [] (by decide)

theorem isPre_append {p q : List String} (h : isPre p q = true) : ∃ s, q = p ++ s := by
  induction p generalizing q with
  | nil => exact ⟨q, rfl⟩
  | cons a p' ih =>
    cases q with
    | nil => simp [isPre] at h
    | cons b q' =>
      simp only [isPre, Bool.and_eq_true, decide_eq_true_eq] at h
      obtain ⟨rfl, h2⟩ := h
      obtain ⟨s, rfl⟩ := ih h2
      exact ⟨s, rfl⟩

theorem isPre_trans {a b c : List String} (h1 : isPre a b = true) (h2 : isPre b c = true) :
    isPre a c = true := by
  induction a generalizing b c with
  | nil => rfl
  | cons x a' ih =>
    cases b with
    | nil => simp [isPre] at h1
    | cons y b' =>
      cases c with
      | nil => simp [isPre] at h2
      | cons z c' =>
        simp only [isPre, Bool.and_eq_true, decide_eq_true_eq] at h1 h2 ⊢
        obtain ⟨rfl, h1'⟩ := h1
        obtain ⟨rfl, h2'⟩ := h2
        exact ⟨rfl, ih h1' h2'⟩

theorem isPre_of_both {a b c : List String} (h1 : isPre a c = true) (h2 : isPre b c = true) :
    isPre a b = true ∨ isPre b a = true := by
  induction c generalizing a b with
  | nil =>
    cases a with
    | nil => exact Or.inl rfl
    | cons x a' => simp [isPre] at h1
  | cons z c' ih =>
    cases a with
    | nil => exact Or.inl rfl
    | cons x a' =>
      cases b with
      | nil => exact Or.inr rfl
      | cons y b' =>
        simp only [isPre, Bool.and_eq_true, decide_eq_true_eq] at h1 h2
        obtain ⟨rfl, h1'⟩ := h1
        obtain ⟨rfl, h2'⟩ := h2
        rcases ih h1' h2' with h | h
        · exact Or.inl (by simp [isPre, h])
        · exact Or.inr (by simp [isPre, h])

/-- Enlarging the target path can only shrink the set of paths that touch
it: an operation path not touching `P` touches no extension `Q` of `P`. -/
theorem touches_mono {ep P Q : List String} (hPQ : isPre P Q = true)
    (h : touches ep P = false) : touches ep Q = false := by
  simp only [touches, Bool.or_eq_false_iff] at h
  simp only [touches, Bool.or_eq_false_iff]
  constructor
  · by_contra hepQ
    rw [Bool.not_eq_false] at hepQ
    rcases isPre_of_both hepQ hPQ with hh | hh
    · simp [h.1] at hh
    · simp [h.2] at hh
  · by_contra hQep
    rw [Bool.not_eq_false] at hQep
    have hPe : isPre P ep = true := isPre_trans hPQ hQep
    simp [h.2] at hPe

theorem lookupD_insertD_self (cs : Dirents) (n : String) (e : Entry) :
    lookupD (insertD cs n e) n = some e :=
  match cs with
  | .nil => by simp [insertD, lookupD]
  | .cons m e0 rest => by
    by_cases h : m = n <;>
      simp [insertD, h, lookupD, lookupD_insertD_self rest n e]

theorem lookupD_insertD_ne (cs : Dirents) (n n' : String) (e : Entry) (h : n ≠ n') :
    lookupD (insertD cs n e) n' = lookupD cs n' :=
  match cs with
  | .nil => by simp [insertD, lookupD, h]
  | .cons m e0 rest => by
    by_cases hm : m = n
    · subst hm
      simp [insertD, lookupD, h]
    · simp [insertD, hm, lookupD, lookupD_insertD_ne rest n n' e h]

theorem lookupD_removeD_self (cs : Dirents) (n : String) :
    lookupD (removeD cs n) n = none :=
  match cs with
  | .nil => by simp [removeD, lookupD]
  | .cons m e rest => by
    by_cases h : m = n <;>
      simp [removeD, h, lookupD, lookupD_removeD_self rest n]

theorem lookupD_removeD_ne (cs : Dirents) (n n' : String) (h : n ≠ n') :
    lookupD (removeD cs n) n' = lookupD cs n' :=
  match cs with
  | .nil => by simp [removeD]
  | .cons m e rest => by
    by_cases hm : m = n
    · subst hm
      simp [removeD, lookupD, h, lookupD_removeD_ne rest m n' h]
    · simp [removeD, hm, lookupD, lookupD_removeD_ne rest n n' h]

theorem lookupPath_append (t : Entry) (p q : List String) :
    lookupPath t (p ++ q) = (lookupPath t p).bind fun e => lookupPath e q := by
  induction p generalizing t with
  | nil => simp [lookupPath]
  | cons n p' ih =>
    cases t with
    | dir m cs =>
      simp only [List.cons_append, lookupPath]
      cases lookupD cs n with
      | some c => exact ih c
      | none => rfl
    | file d fm => rfl
    | symlink s => rfl
    | hardlink s => rfl
    | device d => rfl

theorem lookupPath_insertPath_self (t : Entry) (p : List String) (e : Entry) :
    lookupPath (insertPath t p e) p = some e := by
  induction p generalizing t with
  | nil => rfl
  | cons n rest ih =>
    cases t with
    | dir m cs =>
      simp only [insertPath, lookupPath, lookupD_insertD_self]
      exact ih _
    | file d fm =>
      simp only [insertPath, lookupPath, lookupD_insertD_self]
      exact ih _
    | symlink s =>
      simp only [insertPath, lookupPath, lookupD_insertD_self]
      exact ih _
    | hardlink s =>
      simp only [insertPath, lookupPath, lookupD_insertD_self]
      exact ih _
    | device d =>
      simp only [insertPath, lookupPath, lookupD_insertD_self]
      exact ih _

theorem lookupPath_insertPath_untouched (q : List String) (p : List String) (t : Entry)
    (e : Entry) (h : touches q p = false) :
    lookupPath (insertPath t q e) p = lookupPath t p := by
  induction q generalizing p t with
  | nil => simp [touches, isPre] at h
  | cons n q' ih =>
    cases p with
    | nil => simp [touches, isPre] at h
    | cons n' p' =>
      by_cases hnn : n = n'
      · subst hnn
        have h' : touches q' p' = false := by simpa [touches, isPre] using h
        have hp' : p' ≠ [] := by
          intro he
          subst he
          simp [touches, isPre] at h'
        have hlast : lookupPath (insertPath (Entry.dir defDirMode Dirents.nil) q' e) p' = none := by
          rw [ih p' _ h']
          cases p' with
          | nil => exact absurd rfl hp'
          | cons x p'' => rfl
        cases t with
        | dir m cs =>
          simp only [insertPath, lookupPath]
          cases hc : lookupD cs n with
          | some c =>
            simp only [hc, lookupD_insertD_self]
            exact ih p' c h'
          | none =>
            simp only [hc, lookupD_insertD_self]
            exact hlast
        | file d fm => simp [insertPath, lookupPath, lookupD_insertD_self, hlast]
        | symlink s => simp [insertPath, lookupPath, lookupD_insertD_self, hlast]
        | hardlink s => simp [insertPath, lookupPath, lookupD_insertD_self, hlast]
        | device d => simp [insertPath, lookupPath, lookupD_insertD_self, hlast]
      · cases t with
        | dir m cs =>
          simp only [insertPath, lookupPath, lookupD_insertD_ne _ _ _ _ hnn]
        | file d fm =>
          simp [insertPath, lookupPath, lookupD, insertD, hnn]
        | symlink s =>
          simp [insertPath, lookupPath, lookupD, insertD, hnn]
        | hardlink s =>
          simp [insertPath, lookupPath, lookupD, insertD, hnn]
        | device d =>
          simp [insertPath, lookupPath, lookupD, insertD, hnn]

theorem lookupPath_setDirMeta_untouched (q : List String) (p : List String) (t : Entry)
    (dm : Nat) (h : touches q p = false) :
    lookupPath (setDirMeta t q dm) p = lookupPath t p := by
  induction q generalizing p t with
  | nil => simp [touches, isPre] at h
  | cons n q' ih =>
    cases p with
    | nil => simp [touches, isPre] at h
    | cons n' p' =>
      by_cases hnn : n = n'
      · subst hnn
        have h' : touches q' p' = false := by simpa [touches, isPre] using h
        have hp' : p' ≠ [] := by
          intro he
          subst he
          simp [touches, isPre] at h'
        have hlast : lookupPath (setDirMeta (Entry.dir defDirMode Dirents.nil) q' dm) p' = none := by
          rw [ih p' _ h']
          cases p' with
          | nil => exact absurd rfl hp'
          | cons x p'' => rfl
        cases t with
        | dir m cs =>
          simp only [setDirMeta, lookupPath]
          cases hc : lookupD cs n with
          | some c =>
            simp only [hc, lookupD_insertD_self]
            exact ih p' c h'
          | none =>
            simp only [hc, lookupD_insertD_self]
            exact hlast
        | file d fm => simp [setDirMeta, lookupPath, lookupD_insertD_self, hlast]
        | symlink s => simp [setDirMeta, lookupPath, lookupD_insertD_self, hlast]
        | hardlink s => simp [setDirMeta, lookupPath, lookupD_insertD_self, hlast]
        | device d => simp [setDirMeta, lookupPath, lookupD_insertD_self, hlast]
      · cases t with
        | dir m cs =>
          simp only [setDirMeta, lookupPath, lookupD_insertD_ne _ _ _ _ hnn]
        | file d fm =>
          simp [setDirMeta, lookupPath, lookupD, insertD, hnn]
        | symlink s =>
          simp [setDirMeta, lookupPath, lookupD, insertD, hnn]
        | hardlink s =>
          simp [setDirMeta, lookupPath, lookupD, insertD, hnn]
        | device d =>
          simp [setDirMeta, lookupPath, lookupD, insertD, hnn]

theorem lookupPath_removePath_untouched (q p : List String) (t : Entry)
    (h : touches q p = false) :
    lookupPath (removePath t q) p = lookupPath t p := by
  induction q generalizing p t with
  | nil => simp [touches, isPre] at h
  | cons n q' ih =>
    cases p with
    | nil => simp [touches, isPre] at h
    | cons n' p' =>
      cases q' with
      | nil =>
        have hnn : n ≠ n' := by
          intro he
          subst he
          simp [touches, isPre] at h
        cases t with
        | dir m cs =>
          simp only [removePath, lookupPath, lookupD_removeD_ne _ _ _ hnn]
        | file d fm => rfl
        | symlink s => rfl
        | hardlink s => rfl
        | device d => rfl
      | cons y q'' =>
        by_cases hnn : n = n'
        · subst hnn
          have h' : touches (y :: q'') p' = false := by simpa [touches, isPre] using h
          cases t with
          | dir m cs =>
            simp only [removePath, lookupPath]
            cases hc : lookupD cs n with
            | some c =>
              simp only [hc, lookupD_insertD_self]
              exact ih p' c h'
            | none => simp only [hc]
          | file d fm => rfl
          | symlink s => rfl
          | hardlink s => rfl
          | device d => rfl
        · cases t with
          | dir m cs =>
            simp only [removePath, lookupPath]
            cases hc : lookupD cs n with
            | some c => simp only [hc, lookupD_insertD_ne _ _ _ _ hnn]
            | none => simp only [hc]
          | file d fm => rfl
          | symlink s => rfl
          | hardlink s => rfl
          | device d => rfl

theorem lookupPath_clearPath_untouched (q p : List String) (t : Entry)
    (h : touches q p = false) :
    lookupPath (clearPath t q) p = lookupPath t p := by
  induction q generalizing p t with
  | nil => simp [touches, isPre] at h
  | cons n q' ih =>
    cases p with
    | nil => simp [touches, isPre] at h
    | cons n' p' =>
      by_cases hnn : n = n'
      · subst hnn
        have h' : touches q' p' = false := by simpa [touches, isPre] using h
        cases t with
        | dir m cs =>
          simp only [clearPath, lookupPath]
          cases hc : lookupD cs n with
          | some c =>
            simp only [hc, lookupD_insertD_self]
            exact ih p' c h'
          | none => simp only [hc]
        | file d fm => rfl
        | symlink s => rfl
        | hardlink s => rfl
        | device d => rfl
      · cases t with
        | dir m cs =>
          simp only [clearPath, lookupPath]
          cases hc : lookupD cs n with
          | some c => simp only [hc, lookupD_insertD_ne _ _ _ _ hnn]
          | none => simp only [hc]
        | file d fm => rfl
        | symlink s => rfl
        | hardlink s => rfl
        | device d => rfl

theorem lookupPath_removePath_self (t : Entry) (p : List String) (hp : p ≠ []) :
    lookupPath (removePath t p) p = none := by
  induction p generalizing t with
  | nil => exact absurd rfl hp
  | cons n p' ih =>
    cases p' with
    | nil =>
      cases t with
      | dir m cs => simp [removePath, lookupPath, lookupD_removeD_self]
      | file d fm => simp [removePath, lookupPath]
      | symlink s => simp [removePath, lookupPath]
      | hardlink s => simp [removePath, lookupPath]
      | device d => simp [removePath, lookupPath]
    | cons y p'' =>
      cases t with
      | dir m cs =>
        simp only [removePath]
        cases hc : lookupD cs n with
        | some c =>
          simp only [lookupPath, lookupD_insertD_self]
          exact ih c (by simp)
        | none => simp [lookupPath, hc]
      | file d fm => simp [removePath, lookupPath]
      | symlink s => simp [removePath, lookupPath]
      | hardlink s => simp [removePath, lookupPath]
      | device d => simp [removePath, lookupPath]

/-- A removed entry is gone together with everything below it. -/
theorem lookupPath_removePath_under (t : Entry) (p q : List String) (hp : p ≠ [])
    (hq : isPre p q = true) : lookupPath (removePath t p) q = none := by
  obtain ⟨s, rfl⟩ := isPre_append hq
  rw [lookupPath_append, lookupPath_removePath_self t p hp]
  rfl

/-- After an opaque marker on `D`, nothing strictly below `D` resolves. -/
theorem lookupPath_clearPath_under (D : List String) (t : Entry) (q : List String)
    (hq : isPre D q = true) (hne : D ≠ q) : lookupPath (clearPath t D) q = none := by
  induction D generalizing t q with
  | nil =>
    cases q with
    | nil => exact absurd rfl hne
    | cons x q' =>
      cases t with
      | dir m cs => simp [clearPath, lookupPath, lookupD]
      | file d fm => simp [clearPath, lookupPath]
      | symlink s => simp [clearPath, lookupPath]
      | hardlink s => simp [clearPath, lookupPath]
      | device d => simp [clearPath, lookupPath]
  | cons n D' ih =>
    cases q with
    | nil => simp [isPre] at hq
    | cons x q' =>
      simp only [isPre, Bool.and_eq_true, decide_eq_true_eq] at hq
      obtain ⟨rfl, h2⟩ := hq
      have hne' : D' ≠ q' := fun he => hne (by rw [he])
      cases t with
      | dir m cs =>
        simp only [clearPath]
        cases hc : lookupD cs n with
        | some c =>
          simp only [lookupPath, lookupD_insertD_self]
          exact ih c q' h2 hne'
        | none => simp [lookupPath, hc]
      | file d fm => simp [clearPath, lookupPath]
      | symlink s => simp [clearPath, lookupPath]
      | hardlink s => simp [clearPath, lookupPath]
      | device d => simp [clearPath, lookupPath]

/-- A successful `put_object` always returns the descriptor addressed by the
stream's own digest and carrying the stream's length. -/
theorem put_object_ok_desc (sealOk : Digest → Bool) (r : Repo) (S : Bytes) (D : Digest)
    (r' : Repo) (d : Descriptor) (h : put_object sealOk r S D = (r', Except.ok d)) :
    d = Descriptor.mk (sha256 S) S.length := by
  simp only [put_object] at h
  split at h
  · split at h
    · simp only [Prod.mk.injEq, Except.ok.injEq] at h
      exact h.2.symm
    · split at h
      · simp at h
      · simp only [Prod.mk.injEq, Except.ok.injEq] at h
        exact h.2.symm
  · simp at h

/-- `put_object` preserves the store-validity invariant. -/
theorem storeValid_put (sealOk : Digest → Bool) (r : Repo) (S : Bytes) (D : Digest)
    (hv : storeValid r = true) : storeValid (put_object sealOk r S D).1 = true := by
  simp only [put_object]
  split
  · split
    · exact hv
    · split
      · exact hv
      · simp only [storeValid] at hv ⊢
        simp [List.all_cons, hv]
  · exact hv

/-- Any successful read out of a valid store returns bytes hashing to the
descriptor's digest. -/
theorem get_object_digest {r : Repo} (hv : storeValid r = true) {desc : Descriptor}
    {b : Bytes} (h : get_object r desc = Except.ok b) : sha256 b = desc.digest := by
  simp only [get_object] at h
  split at h
  case h_1 b0 hl =>
    split at h
    · simp at h
    · simp only [Except.ok.injEq] at h
      subst h
      exact storeValid_mem hv (lookupKey_mem hl)
  case h_2 hl => simp at h

/-- Stepping one tar entry: split off the head of a successful item list. -/
theorem applyItems_cons_ok (sealOk : Digest → Bool) (it : TarItem) (its : List TarItem)
    (r : Repo) (t : Entry) (r' : Repo) (t' : Entry)
    (h : applyItems sealOk r t (it :: its) = Except.ok (r', t')) :
    ∃ rt1, applyItem sealOk r t it = Except.ok rt1 ∧
      applyItems sealOk rt1.1 rt1.2 its = Except.ok (r', t') := by
  simp only [applyItems] at h
  cases hx : applyItem sealOk r t it with
  | ok rt1 =>
    rw [hx] at h
    exact ⟨rt1, rfl, h⟩
  | error e =>
    rw [hx] at h
    simp at h

theorem applyItems_append (sealOk : Digest → Bool) (xs ys : List TarItem)
    (r : Repo) (t : Entry) :
    applyItems sealOk r t (xs ++ ys) =
      match applyItems sealOk r t xs with
      | Except.ok rt => applyItems sealOk rt.1 rt.2 ys
      | Except.error e => Except.error e := by
  induction xs generalizing r t with
  | nil => rfl
  | cons x xs ih =>
    simp only [List.cons_append, applyItems]
    cases applyItem sealOk r t x with
    | ok rt => exact ih rt.1 rt.2
    | error e => rfl

theorem applyItems_append_ok (sealOk : Digest → Bool) (xs ys : List TarItem)
    (r : Repo) (t : Entry) (r' : Repo) (t' : Entry)
    (h : applyItems sealOk r t (xs ++ ys) = Except.ok (r', t')) :
    ∃ rt1, applyItems sealOk r t xs = Except.ok rt1 ∧
      applyItems sealOk rt1.1 rt1.2 ys = Except.ok (r', t') := by
  rw [applyItems_append] at h
  cases hx : applyItems sealOk r t xs with
  | ok rt1 =>
    rw [hx] at h
    exact ⟨rt1, rfl, h⟩
  | error e =>
    rw [hx] at h
    simp at h

/-- Processing layers in manifest order is processing their concatenated
entries in order. -/
theorem applyLayers_eq (sealOk : Digest → Bool) (ls : List (List TarItem))
    (r : Repo) (t : Entry) :
    applyLayers sealOk r t ls = applyItems sealOk r t ls.flatten := by
  induction ls generalizing r t with
  | nil => rfl
  | cons l ls ih =>
    rw [List.flatten_cons, applyItems_append]
    simp only [applyLayers]
    cases applyItems sealOk r t l with
    | ok rt => exact ih rt.1 rt.2
    | error e => rfl

/-- A successful regular-file step stores the content under its own digest
and binds the path to a file entry referencing the resulting descriptor. -/
theorem applyItem_reg_ok (sealOk : Digest → Bool) (r : Repo) (t : Entry)
    (p : List String) (c : Bytes) (m : Nat) (rt : Repo × Entry)
    (h : applyItem sealOk r t (TarItem.reg p c m) = Except.ok rt) :
    put_object sealOk r c (sha256 c) =
      (rt.1, Except.ok (Descriptor.mk (sha256 c) c.length)) ∧
    rt.2 = insertPath t p (Entry.file (Descriptor.mk (sha256 c) c.length) m) := by
  simp only [applyItem] at h
  cases hp : put_object sealOk r c (sha256 c) with
  | mk r2 res =>
    rw [hp] at h
    cases res with
    | error e => simp at h
    | ok d =>
      have hd : d = Descriptor.mk (sha256 c) c.length :=
        put_object_ok_desc sealOk r c (sha256 c) r2 d hp
      subst hd
      simp only [Except.ok.injEq] at h
      subst h
      exact ⟨rfl, rfl⟩

/-- One successful tar step does not disturb lookups at untouched paths. -/
theorem applyItem_ok_tree (sealOk : Digest → Bool) (r : Repo) (t : Entry) (it : TarItem)
    (r' : Repo) (t' : Entry) (h : applyItem sealOk r t it = Except.ok (r', t'))
    (P : List String) (hna : touches (itemPath it) P = false) :
    lookupPath t' P = lookupPath t P := by
  cases it with
  | reg p c m =>
    obtain ⟨hput, ht⟩ := applyItem_reg_ok sealOk r t p c m (r', t') h
    have ht' : t' = insertPath t p
        (Entry.file (Descriptor.mk (sha256 c) c.length) m) := ht
    rw [ht']
    exact lookupPath_insertPath_untouched p P t _ hna
  | dir p m =>
    simp only [applyItem, Except.ok.injEq, Prod.mk.injEq] at h
    rw [← h.2]
    exact lookupPath_setDirMeta_untouched p P t m hna
  | symlink p tgt =>
    simp only [applyItem, Except.ok.injEq, Prod.mk.injEq] at h
    rw [← h.2]
    exact lookupPath_insertPath_untouched p P t _ hna
  | hardlink p tgt =>
    simp only [applyItem, Except.ok.injEq, Prod.mk.injEq] at h
    rw [← h.2]
    exact lookupPath_insertPath_untouched p P t _ hna
  | device p rdev =>
    simp only [applyItem, Except.ok.injEq, Prod.mk.injEq] at h
    rw [← h.2]
    exact lookupPath_insertPath_untouched p P t _ hna
  | whiteout p =>
    simp only [applyItem, Except.ok.injEq, Prod.mk.injEq] at h
    rw [← h.2]
    exact lookupPath_removePath_untouched p P t hna
  | opaqDir p =>
    simp only [applyItem, Except.ok.injEq, Prod.mk.injEq] at h
    rw [← h.2]
    exact lookupPath_clearPath_untouched p P t hna

/-- A successful run of tar entries that never touches `P` leaves the lookup
at `P` unchanged. -/
theorem applyItems_ok_tree (sealOk : Digest → Bool) (es : List TarItem) (r : Repo)
    (t : Entry) (r' : Repo) (t' : Entry)
    (h : applyItems sealOk r t es = Except.ok (r', t')) (P : List String)
    (hna : ∀ e ∈ es, touches (itemPath e) P = false) :
    lookupPath t' P = lookupPath t P := by
  induction es generalizing r t with
  | nil =>
    simp only [applyItems, Except.ok.injEq, Prod.mk.injEq] at h
    rw [← h.2]
  | cons it its ih =>
    obtain ⟨rt1, h1, h2⟩ := applyItems_cons_ok sealOk it its r t r' t' h
    have hstep := applyItem_ok_tree sealOk r t it rt1.1 rt1.2 (by rw [h1]) P
      (hna it (List.mem_cons_self _ _))
    rw [ih rt1.1 rt1.2 h2 fun e he => hna e (List.mem_cons_of_mem _ he), hstep]

/-- Through a successful run of tar entries the object store only grows and
stays valid. -/
theorem applyItems_repo (sealOk : Digest → Bool) (es : List TarItem) (r : Repo)
    (t : Entry) (r' : Repo) (t' : Entry)
    (h : applyItems sealOk r t es = Except.ok (r', t')) :
    (∀ ob ∈ r.objects, ob ∈ r'.objects) ∧
    (storeValid r = true → storeValid r' = true) := by
  induction es generalizing r t with
  | nil =>
    simp only [applyItems, Except.ok.injEq, Prod.mk.injEq] at h
    rw [← h.1]
    exact ⟨fun ob hh => hh, id⟩
  | cons it its ih =>
    obtain ⟨rt1, h1, h2⟩ := applyItems_cons_ok sealOk it its r t r' t' h
    have hrec := ih rt1.1 rt1.2 h2
    have hstep : (∀ ob ∈ r.objects, ob ∈ rt1.1.objects) ∧
        (storeValid r = true → storeValid rt1.1 = true) := by
      cases it with
      | reg p c m =>
        obtain ⟨hput, ht⟩ := applyItem_reg_ok sealOk r t p c m rt1 h1
        have hf := put_object_frame sealOk r c (sha256 c)
        have hv := storeValid_put sealOk r c (sha256 c)
        rw [hput] at hf hv
        exact ⟨hf.2.2, hv⟩
      | dir p m =>
        simp only [applyItem, Except.ok.injEq] at h1
        rw [← h1]
        exact ⟨fun ob hh => hh, id⟩
      | symlink p tgt =>
        simp only [applyItem, Except.ok.injEq] at h1
        rw [← h1]
        exact ⟨fun ob hh => hh, id⟩
      | hardlink p tgt =>
        simp only [applyItem, Except.ok.injEq] at h1
        rw [← h1]
        exact ⟨fun ob hh => hh, id⟩
      | device p rdev =>
        simp only [applyItem, Except.ok.injEq] at h1
        rw [← h1]
        exact ⟨fun ob hh => hh, id⟩
      | whiteout p =>
        simp only [applyItem, Except.ok.injEq] at h1
        rw [← h1]
        exact ⟨fun ob hh => hh, id⟩
      | opaqDir p =>
        simp only [applyItem, Except.ok.injEq] at h1
        rw [← h1]
        exact ⟨fun ob hh => hh, id⟩
    exact ⟨fun ob hh => hrec.1 ob (hstep.1 ob hh),
           fun hv => hrec.2 (hstep.2 hv)⟩

/-- C5: when the entries of the layers, concatenated in manifest order,
contain a regular-file write of `P` after which no entry touches `P`, the
final tree binds `P` to exactly that write's file entry — whatever was there
before, of whatever type, is fully replaced — and reading the referenced
descriptor out of the final repository yields exactly that write's content. -/
theorem layer_override (sealOk : Digest → Bool) (r : Repo) (t : Entry)
    (layers : List (List TarItem)) (es1 es2 : List TarItem)
    (P : List String) (c : Bytes) (m : Nat) (r' : Repo) (t' : Entry)
    (hdec : layers.flatten = es1 ++ TarItem.reg P c m :: es2)
    (hafter : ∀ e ∈ es2, touches (itemPath e) P = false)
    (hrun : applyLayers sealOk r t layers = Except.ok (r', t'))
    (hv : storeValid r = true) :
    lookupPath t' P = some (Entry.file (Descriptor.mk (sha256 c) c.length) m) ∧
    ∀ b, get_object r' (Descriptor.mk (sha256 c) c.length) = Except.ok b → b = c := by
  rw [applyLayers_eq, hdec] at hrun
  obtain ⟨rt1, h1, h2⟩ := applyItems_append_ok sealOk es1 _ r t r' t' hrun
  obtain ⟨rt2, hw, h3⟩ := applyItems_cons_ok sealOk _ es2 rt1.1 rt1.2 r' t' h2
  obtain ⟨hput, ht⟩ := applyItem_reg_ok sealOk rt1.1 rt1.2 P c m rt2 hw
  constructor
  · rw [applyItems_ok_tree sealOk es2 rt2.1 rt2.2 r' t' h3 P hafter, ht]
    exact lookupPath_insertPath_self rt1.2 P _
  · have hv1 : storeValid rt1.1 = true :=
      (applyItems_repo sealOk es1 r t rt1.1 rt1.2 h1).2 hv
    have hv2 : storeValid rt2.1 = true := by
      have hsv := storeValid_put sealOk rt1.1 c (sha256 c) hv1
      rw [hput] at hsv
      exact hsv
    have hv3 : storeValid r' = true :=
      (applyItems_repo sealOk es2 rt2.1 rt2.2 r' t' h3).2 hv2
    intro b hb
    exact sha256_inj (get_object_digest hv3 hb)

/-- Witness for C5: layer 1 writes `/a` with content `foo`, layer 2 rewrites
it with `bar`; the unpacked tree's `/a` is the `bar` file entry. -/
theorem layer_override_w :
    lookupPath ovRun.2 ["a"] =
      some (Entry.file (Descriptor.mk (sha256 barB) barB.length) 420) :=
  (layer_override (fun _ => true) repo0 tree0 ovLayers
    [TarItem.reg ["a"] fooB 420] [] ["a"] barB 420 ovRun.1 ovRun.2
    rfl (by simp) rfl rfl).1

/-- C6: when the concatenated layer entries contain a whiteout of `P` after
which no entry touches `P`, the final tree has no entry at `P` (nor at
anything below `P`: a removed directory takes its contents with it), while
every object stored in the repository before the unpack remains stored. -/
theorem whiteout_removal (sealOk : Digest → Bool) (r : Repo) (t : Entry)
    (layers : List (List TarItem)) (es1 es2 : List TarItem) (P : List String)
    (r' : Repo) (t' : Entry)
    (hdec : layers.flatten = es1 ++ TarItem.whiteout P :: es2)
    (hP : P ≠ [])
    (hafter : ∀ e ∈ es2, touches (itemPath e) P = false)
    (hrun : applyLayers sealOk r t layers = Except.ok (r', t')) :
    (∀ Q, isPre P Q = true → lookupPath t' Q = none) ∧
    ∀ ob ∈ r.objects, ob ∈ r'.objects := by
  rw [applyLayers_eq, hdec] at hrun
  obtain ⟨rt1, h1, h2⟩ := applyItems_append_ok sealOk es1 _ r t r' t' hrun
  obtain ⟨rt2, hw, h3⟩ := applyItems_cons_ok sealOk _ es2 rt1.1 rt1.2 r' t' h2
  simp only [applyItem, Except.ok.injEq] at hw
  constructor
  · intro Q hQ
    have hafterQ : ∀ e ∈ es2, touches (itemPath e) Q = false :=
      fun e he => touches_mono hQ (hafter e he)
    have ht2 : rt2.2 = removePath rt1.2 P := by rw [← hw]
    rw [applyItems_ok_tree sealOk es2 rt2.1 rt2.2 r' t' h3 Q hafterQ, ht2]
    exact lookupPath_removePath_under rt1.2 P Q hP hQ
  · intro ob hob
    have m1 := (applyItems_repo sealOk es1 r t rt1.1 rt1.2 h1).1
    have m3 := (applyItems_repo sealOk es2 rt2.1 rt2.2 r' t' h3).1
    have hr2 : rt2.1 = rt1.1 := by rw [← hw]
    exact m3 ob (hr2 ▸ m1 ob hob)

/-- Witness for C6: layer 1 creates `/dir/f`, layer 2 whites it out; the
final tree has no entry at `/dir/f`. -/
theorem whiteout_removal_w : lookupPath whRun.2 ["dir", "f"] = none :=
  (whiteout_removal (fun _ => true) repo0 tree0 whLayers
    [TarItem.reg ["dir", "f"] fooB 420] [] ["dir", "f"] whRun.1 whRun.2
    rfl (by simp) (by simp) rfl).1 ["dir", "f"] (by decide)

/-- C7: when the concatenated layer entries contain an opaque-directory
marker on `D`, every path strictly under `D` that no later entry touches is
absent from the final tree: the children recorded under `D` by earlier
layers are cleared, and only entries the later layers themselves write under
`D` can appear there. -/
theorem opaqDir_clears (sealOk : Digest → Bool) (r : Repo) (t : Entry)
    (layers : List (List TarItem)) (es1 es2 : List TarItem)
    (D Q : List String) (r' : Repo) (t' : Entry)
    (hdec : layers.flatten = es1 ++ TarItem.opaqDir D :: es2)
    (hQ : isPre D Q = true) (hne : D ≠ Q)
    (hafter : ∀ e ∈ es2, touches (itemPath e) Q = false)
    (hrun : applyLayers sealOk r t layers = Except.ok (r', t')) :
    lookupPath t' Q = none := by
  rw [applyLayers_eq, hdec] at hrun
  obtain ⟨rt1, h1, h2⟩ := applyItems_append_ok sealOk es1 _ r t r' t' hrun
  obtain ⟨rt2, hw, h3⟩ := applyItems_cons_ok sealOk _ es2 rt1.1 rt1.2 r' t' h2
  simp only [applyItem, Except.ok.injEq] at hw
  have ht2 : rt2.2 = clearPath rt1.2 D := by rw [← hw]
  rw [applyItems_ok_tree sealOk es2 rt2.1 rt2.2 r' t' h3 Q hafter, ht2]
  exact lookupPath_clearPath_under D rt1.2 Q hQ hne

/-- Witness for C7: layer 1 creates `/dir/a` and `/dir/b`, layer 2 marks
`/dir` opaque and creates `/dir/c`; in the final tree `/dir/a` is gone
(and, by direct evaluation, so is `/dir/b` while `/dir/c` is present). -/
theorem opaqDir_clears_w :
    lookupPath opRun.2 ["dir", "a"] = none ∧
    lookupPath opRun.2 ["dir", "b"] = none ∧
    lookupPath opRun.2 ["dir", "c"] =
      some (Entry.file (Descriptor.mk (sha256 barB) barB.length) 420) :=
  ⟨opaqDir_clears (fun _ => true) repo0 tree0 opLayers
      [TarItem.reg ["dir", "a"] fooB 420, TarItem.reg ["dir", "b"] fooB 420]
      [TarItem.reg ["dir", "c"] barB 420] ["dir"] ["dir", "a"] opRun.1 opRun.2
      rfl (by decide) (by decide) (by decide) rfl,
   rfl, rfl⟩

/-- `put_object` preserves the sealed-objects invariant. -/
theorem sealInvB_put (sealOk : Digest → Bool) (r : Repo) (S : Bytes) (D : Digest)
    (hs : sealInvB r = true) : sealInvB (put_object sealOk r S D).1 = true := by
  simp only [put_object]
  split
  · split
    · exact hs
    · split
      case isTrue => exact hs
      case isFalse hseal =>
        by_cases hreq : r.integrityRequired
        · have hso : sealOk (sha256 S) = true := by
            by_contra hso
            exact hseal (by simp [hreq, hso])
          simp only [sealInvB, hreq, Bool.not_true, Bool.false_or,
            List.all_eq_true] at hs ⊢
          rw [if_pos hso]
          intro p hp
          rcases List.mem_cons.mp hp with hph | hpr
          · subst hph
            simp
          · have hmem := of_decide_eq_true (hs p hpr)
            simp [List.mem_cons_of_mem _ hmem]
        · simp [sealInvB, hreq]
  · exact hs

/-- The per-blob pull loop preserves the sealed-objects invariant. -/
theorem sealInvB_pullBlobs (sealOk : Digest → Bool) (blobs : List BlobSrc) (r : Repo)
    (hs : sealInvB r = true) : sealInvB (pullBlobs sealOk r blobs).1 = true := by
  induction blobs generalizing r with
  | nil => exact hs
  | cons b bs ih =>
    simp only [pullBlobs]
    have hput := sealInvB_put sealOk r b.bytes b.desc.digest hs
    cases hp : put_object sealOk r b.bytes b.desc.digest with
    | mk r' res =>
      rw [hp] at hput
      cases res with
      | ok d => exact ih r' hput
      | error e => exact hput

/-- C8: with integrity mode required, any failing `put_object` commits
nothing (the repository is returned unchanged); a fresh object whose seal
application fails is rejected with `SealError` rather than committed
unsealed; the pull loop preserves the invariant that every committed object
carries a valid seal; and a pull whose next blob verifies but cannot be
sealed fails with `SealError`. -/
theorem integrity_seal_required (sealOk : Digest → Bool) (r : Repo)
    (hreq : r.integrityRequired = true) (hinv : sealInvB r = true) :
    (∀ S D r' e, put_object sealOk r S D = (r', Except.error e) → r' = r) ∧
    (∀ S, sealOk (sha256 S) = false → lookupKey r.objects (sha256 S) = none →
      put_object sealOk r S (sha256 S) = (r, Except.error RepoError.sealError)) ∧
    (∀ blobs, sealInvB (pullBlobs sealOk r blobs).1 = true) ∧
    (∀ b bs, sha256 b.bytes = b.desc.digest → sealOk b.desc.digest = false →
      lookupKey r.objects b.desc.digest = none →
      pullBlobs sealOk r (b :: bs) = (r, Except.error RepoError.sealError)) := by
  refine ⟨?_, ?_, fun blobs => sealInvB_pullBlobs sealOk blobs r hinv, ?_⟩
  · intro S D r' e h
    simp only [put_object] at h
    split at h
    · split at h
      · simp at h
      · split at h
        · simp only [Prod.mk.injEq] at h
          exact h.1.symm
        · simp at h
    · simp only [Prod.mk.injEq] at h
      exact h.1.symm
  · intro S hso hl
    simp only [put_object, if_true]
    rw [hl]
    simp [hreq, hso]
  · intro b bs hmatch hso hl
    have hput : put_object sealOk r b.bytes b.desc.digest =
        (r, Except.error RepoError.sealError) := by
      simp only [put_object]
      rw [if_pos hmatch, hmatch, hl]
      simp [hreq, hso]
    simp only [pullBlobs]
    rw [hput]

/-- Witness for C8: in an empty required-mode repository with a failing
sealer, storing the one-byte object `[3]` fails with `SealError` and commits
nothing, and a pull fetching that same verified blob fails with `SealError`. -/
theorem integrity_seal_required_w :
    put_object (fun _ => false) repo0req [(3 : Fin 256)] (sha256 [(3 : Fin 256)]) =
      (repo0req, Except.error RepoError.sealError) ∧
    pullBlobs (fun _ => false) repo0req
        [BlobSrc.mk (Descriptor.mk [3] 1) [(3 : Fin 256)]] =
      (repo0req, Except.error RepoError.sealError) :=
  ⟨(integrity_seal_required (fun _ => false) repo0req rfl (by decide)).2.1
      [(3 : Fin 256)] rfl rfl,
   (integrity_seal_required (fun _ => false) repo0req rfl (by decide)).2.2.2
      (BlobSrc.mk (Descriptor.mk [3] 1) [(3 : Fin 256)]) [] (by decide) rfl rfl⟩

/-- C9: `read_artifact_metadata` on an absent tag returns `none` and the
driver's `Inspect` subcommand then writes nothing and still succeeds; on a
present tag the artifact's metadata is returned and written. -/
theorem inspect_tag_query (r : Repo) (name : String) :
    (lookupKey r.tags name = none →
      read_artifact_metadata r name = none ∧ runInspect r name = ([], true)) ∧
    (∀ aid a, lookupKey r.tags name = some aid → lookupKey r.artifacts aid = some a →
      read_artifact_metadata r name = some a.meta ∧
      runInspect r name = ([a.meta], true)) := by
  constructor
  · intro h
    have hrm : read_artifact_metadata r name = none := by
      simp [read_artifact_metadata, h]
    exact ⟨hrm, by simp [runInspect, hrm]⟩
  · intro aid a h1 h2
    have hrm : read_artifact_metadata r name = some a.meta := by
      simp [read_artifact_metadata, h1, h2]
    exact ⟨hrm, by simp [runInspect, hrm]⟩

/-- Witness for C9: inspecting the absent tag `missing` in an empty
repository writes nothing and succeeds; inspecting `demo` in a repository
that tags artifact 0 as `demo` returns that artifact's metadata. -/
theorem inspect_tag_query_w :
    (read_artifact_metadata repo0 "missing" = none ∧
      runInspect repo0 "missing" = ([], true)) ∧
    (read_artifact_metadata repoTag "demo" = some demoMeta ∧
      runInspect repoTag "demo" = ([demoMeta], true)) :=
  ⟨(inspect_tag_query repo0 "missing").1 rfl,
   (inspect_tag_query repoTag "demo").2 0 ⟨⟨[0], 0⟩, demoMeta⟩ rfl rfl⟩

theorem ancestors_mem_self (p : List String) : p ∈ ancestors p := by
  induction p with
  | nil => simp [ancestors]
  | cons a rest ih =>
    exact List.mem_cons_of_mem _ (List.mem_map_of_mem _ ih)

theorem ancestors_pre (q p : List String) (h : isPre q p = true) : q ∈ ancestors p := by
  induction p generalizing q with
  | nil =>
    cases q with
    | nil => simp [ancestors]
    | cons b q' => simp [isPre] at h
  | cons a rest ih =>
    cases q with
    | nil => simp [ancestors]
    | cons b q' =>
      simp only [isPre, Bool.and_eq_true, decide_eq_true_eq] at h
      obtain ⟨rfl, h2⟩ := h
      exact List.mem_cons_of_mem _ (List.mem_map_of_mem _ (ih q' h2))

/-- C10: for every ambient filesystem — including one where the target
directory already exists or is non-empty — the `Create` driver succeeds,
first materializing the repository directory and all of its missing parents
(touching no files), and then calls `Repo::init` with exactly the
`require_verity` flag given on the command line; no emptiness check is
performed anywhere. -/
theorem create_driver_behavior (fs : Fsys) (opts : CreateOpts) :
    runCreate fs opts =
      Except.ok (create_dir_all fs opts.repo,
        InitCall.mk opts.repo opts.require_verity) ∧
    opts.repo ∈ (create_dir_all fs opts.repo).dirs ∧
    (∀ q, isPre q opts.repo = true → q ∈ (create_dir_all fs opts.repo).dirs) ∧
    (∀ d ∈ fs.dirs, d ∈ (create_dir_all fs opts.repo).dirs) ∧
    (create_dir_all fs opts.repo).files = fs.files := by
  refine ⟨rfl, ?_, ?_, ?_, rfl⟩
  · simp only [create_dir_all, List.mem_append]
    exact Or.inl (ancestors_mem_self opts.repo)
  · intro q hq
    simp only [create_dir_all, List.mem_append]
    exact Or.inl (ancestors_pre q opts.repo hq)
  · intro d hd
    simp only [create_dir_all, List.mem_append]
    exact Or.inr hd

/-- Witness for C10: creating a repository at `r` with `--require-verity`
when `r` already exists and contains a file still succeeds and records a
`Repo::init` call with the flag set. -/
theorem create_driver_behavior_w :
    runCreate fs0 (CreateOpts.mk ["r"] true) =
      Except.ok (create_dir_all fs0 ["r"], InitCall.mk ["r"] true) :=
  (create_driver_behavior fs0 (CreateOpts.mk ["r"] true)).1

end ComposefsOci
